import Mathlib

/-!
Verification of the duplicate-resolution logic of the semantic-deduplication
notebook (`tutorials/semantic_deduplication.ipynb`).

The notebook defines two resolvers:

* `deduplicate(embedding_matrix, threshold, batch_size)`: builds a `Reach`
  nearest-neighbor index over the embeddings, asks it for the per-document
  neighbor lists above the threshold, and then runs a single greedy forward
  pass that keeps the first member of each similarity cluster and maps every
  later member to it.

* `deduplicate_across_datasets(m1, m2, threshold, batch_size)`: asks the
  `Reach` index built on the first dataset for the neighbors of every document
  of the second dataset, re-filters each candidate list by
  `item[1] >= threshold`, and records the first surviving candidate.

The greedy passes are embedded here verbatim over the delivered neighbor
lists (`List (List (ℕ × ℚ))`: for each document, a list of
`(candidate index, score)` pairs); similarity scores are modelled as
rationals.  The external embedding + nearest-neighbor machinery (the `reach`
library) is not part of the repository; where a claim depends on it, it is
modelled from the spec's contract (see `nearest_neighbor_threshold`).
-/

namespace SemanticDedup

/-- State of the same-dataset greedy pass of `deduplicate`:
`kept` is the Python set `deduplicated_indices`, `dupOf` is the Python
insertion-ordered dict `duplicate_to_original_mapping`, rendered as the
list of `(key, value)` pairs in insertion order. -/
structure DedupState where
  kept : Finset ℕ
  dupOf : List (ℕ × ℕ)

/-- The neighbor indices the pass actually iterates over for source `i`:
`similar_indices = [int(item[0]) for item in similar_items if int(item[0]) != i]`. -/
def nbrsOf (i : ℕ) (items : List (ℕ × ℚ)) : List ℕ :=
  (items.map Prod.fst).filter (fun j => j ≠ i)

/-- Inner loop of `deduplicate`:
`for sim_idx in similar_indices: if sim_idx in deduplicated_indices:
deduplicated_indices.remove(sim_idx); duplicate_to_original_mapping[sim_idx] = i`. -/
def processSims (i : ℕ) : List ℕ → DedupState → DedupState
  | [], st => st
  | j :: js, st =>
      if j ∈ st.kept then
        processSims i js ⟨st.kept.erase j, st.dupOf ++ [(j, i)]⟩
      else
        processSims i js st

/-- Outer loop of `deduplicate`: `for i, similar_items in enumerate(results)`,
with the leading `if i not in deduplicated_indices: continue`.  The counter
argument carries the value of `i` produced by `enumerate`. -/
def dedupLoop : ℕ → List (List (ℕ × ℚ)) → DedupState → DedupState
  | _, [], st => st
  | i, items :: rest, st =>
      if i ∈ st.kept then
        dedupLoop (i + 1) rest (processSims i (nbrsOf i items) st)
      else
        dedupLoop (i + 1) rest st

/-- The same-dataset resolver of `deduplicate`, taking the neighbor lists
delivered by the upstream search (`results`, one list per document, so the
document count is `results.length`).  `deduplicated_indices` starts as
`set(range(len(embedding_matrix)))`; the function returns the surviving
indices and the duplicate-to-original mapping. -/
def dedupResolve (results : List (List (ℕ × ℚ))) : Finset ℕ × List (ℕ × ℕ) :=
  let final := dedupLoop 0 results ⟨Finset.range results.length, []⟩
  (final.kept, final.dupOf)

/-- Modelled from the spec: the external neighbor-search collaborator
(`reach.nearest_neighbor_threshold`, not part of this repository) returns,
for every document `i` of the collection, the list of `(j, score(i,j))`
pairs whose similarity score is at or above the threshold (inclusive
comparison), in document order.  The pairwise similarity measure of the
embedding backend is abstracted as `sim`. -/
def nearest_neighbor_threshold (sim : ℕ → ℕ → ℚ) (threshold : ℚ) (n : ℕ) :
    List (List (ℕ × ℚ)) :=
  (List.range n).map fun i =>
    ((List.range n).filter (fun j => threshold ≤ sim i j)).map fun j => (j, sim i j)

/-- The full same-dataset pipeline of `deduplicate`: obtain the thresholded
neighbor lists from the external search, then run the greedy pass. -/
def deduplicate (sim : ℕ → ℕ → ℚ) (threshold : ℚ) (n : ℕ) :
    Finset ℕ × List (ℕ × ℕ) :=
  dedupResolve (nearest_neighbor_threshold sim threshold n)

/-- Loop of `deduplicate_across_datasets`:
`for i, similar_items in enumerate(results)`, where
`similar_indices = [int(item[0]) for item in similar_items if item[1] >= threshold]`,
and if non-empty, `i` is appended to `duplicate_indices_in_test` and
`duplicate_to_original_mapping[i] = similar_indices[0]`. -/
def crossLoop (threshold : ℚ) :
    ℕ → List (List (ℕ × ℚ)) → List ℕ × List (ℕ × ℕ) → List ℕ × List (ℕ × ℕ)
  | _, [], acc => acc
  | i, items :: rest, acc =>
      match (items.filter (fun item => threshold ≤ item.2)).map Prod.fst with
      | [] => crossLoop threshold (i + 1) rest acc
      | j :: _ =>
          crossLoop threshold (i + 1) rest (acc.1 ++ [i], acc.2 ++ [(i, j)])

/-- The cross-dataset resolver of `deduplicate_across_datasets`, taking the
candidate lists delivered by the upstream search for each query document
(`results`, one list per query document) and the threshold used by the
in-loop re-check.  Returns `duplicate_indices_in_test` and
`duplicate_to_original_mapping`. -/
def deduplicate_across_datasets (threshold : ℚ)
    (results : List (List (ℕ × ℚ))) : List ℕ × List (ℕ × ℕ) :=
  crossLoop threshold 0 results ([], [])

/-- Keys of the duplicate map, in insertion order. -/
def keysOf (st : DedupState) : List ℕ := st.dupOf.map Prod.fst

/-- Invariant maintained by the same-dataset pass over a collection of `n`
documents: `kept` and the map keys partition `{0,...,n-1}`, the keys are
pairwise distinct, the value of every entry was never a key written before
it (`Pairwise`), and every value is an in-range index distinct from its key. -/
def Inv (n : ℕ) (st : DedupState) : Prop :=
  (∀ j, (j ∈ st.kept ∨ j ∈ keysOf st) ↔ j ∈ Finset.range n) ∧
  (∀ j ∈ keysOf st, j ∉ st.kept) ∧
  (keysOf st).Nodup ∧
  st.dupOf.Pairwise (fun a b => b.2 ≠ a.1) ∧
  (∀ p ∈ st.dupOf, p.2 < n ∧ p.2 ≠ p.1)

/-- Every value recorded in the duplicate map is still a kept index. -/
def ValuesKept (st : DedupState) : Prop := ∀ p ∈ st.dupOf, p.2 ∈ st.kept

/-- No document still to be processed (position `c + k` of the remaining
lists `l`) that is still kept lists any already-recorded value among its
neighbors. -/
def NoFuture (c : ℕ) (l : List (List (ℕ × ℚ))) (st : DedupState) : Prop :=
  ∀ p ∈ st.dupOf, ∀ k items, l[k]? = some items → (c + k) ∈ st.kept →
    p.2 ∉ nbrsOf (c + k) items

/-- Membership symmetry of the delivered neighbor lists `l` (positions are
offset by `c`): if `c + k₁` occurs among the neighbors of `c + k₂`, then
`c + k₂` occurs among the neighbors of `c + k₁`. -/
def SymSeg (c : ℕ) (l : List (List (ℕ × ℚ))) : Prop :=
  ∀ k₁ k₂ it₁ it₂, l[k₁]? = some it₁ → l[k₂]? = some it₂ →
    (c + k₁) ∈ nbrsOf (c + k₂) it₂ → (c + k₂) ∈ nbrsOf (c + k₁) it₁

/-- The delivered neighbor relation is symmetric and complete (decidable
phrasing over the delivered lists, documents being `0..results.length-1`):
whenever `p` occurs among the neighbors the search delivered for `q`, `q`
occurs among the neighbors delivered for `p`. -/
@[reducible]
def SymRel (results : List (List (ℕ × ℚ))) : Prop :=
  ∀ p, p < results.length → ∀ q, q < results.length →
    p ∈ nbrsOf q (results.getD q []) → q ∈ nbrsOf p (results.getD p [])

/-- All candidate indices that the search delivered are in range
`[0, results.length)`. -/
@[reducible]
def InRange (results : List (List (ℕ × ℚ))) : Prop :=
  ∀ k, k < results.length → ∀ p ∈ results.getD k [], p.1 < results.length

/-! ### Basic facts about the neighbor-list projection -/

theorem mem_nbrsOf {x i : ℕ} {items : List (ℕ × ℚ)} :
    x ∈ nbrsOf i items ↔ x ∈ items.map Prod.fst ∧ x ≠ i := by
  simp [nbrsOf]

theorem self_not_mem_nbrsOf (i : ℕ) (items : List (ℕ × ℚ)) :
    i ∉ nbrsOf i items := by
  simp [nbrsOf]

/-! ### Facts about the inner removal loop -/

theorem processSims_kept_subset (i : ℕ) (js : List ℕ) (st : DedupState) :
    (processSims i js st).kept ⊆ st.kept := by
  induction js generalizing st with
  | nil => simp [processSims]
  | cons j js ih =>
      rw [processSims]
      split
      · exact (ih _).trans (Finset.erase_subset _ _)
      · exact ih st

theorem processSims_dupOf_extend (i : ℕ) (js : List ℕ) (st : DedupState) :
    ∃ t, (processSims i js st).dupOf = st.dupOf ++ t := by
  induction js generalizing st with
  | nil => exact ⟨[], by simp [processSims]⟩
  | cons j js ih =>
      rw [processSims]
      split
      · obtain ⟨t, ht⟩ := ih ⟨st.kept.erase j, st.dupOf ++ [(j, i)]⟩
        exact ⟨(j, i) :: t, by simpa using ht⟩
      · exact ih st

theorem processSims_mem_dupOf (i : ℕ) (js : List ℕ) (st : DedupState)
    (p : ℕ × ℕ) (hp : p ∈ (processSims i js st).dupOf) :
    p ∈ st.dupOf ∨ (p.2 = i ∧ p.1 ∈ js ∧ p.1 ∈ st.kept) := by
  induction js generalizing st with
  | nil => exact Or.inl (by simpa [processSims] using hp)
  | cons j js ih =>
      rw [processSims] at hp
      by_cases hj : j ∈ st.kept
      · rw [if_pos hj] at hp
        rcases ih _ hp with h | ⟨h1, h2, h3⟩
        · rcases List.mem_append.mp h with h' | h'
          · exact Or.inl h'
          · refine Or.inr ?_
            rcases List.mem_singleton.mp h' with rfl
            exact ⟨rfl, List.mem_cons_self _ _, hj⟩
        · exact Or.inr ⟨h1, List.mem_cons_of_mem _ h2,
            Finset.mem_of_mem_erase h3⟩
      · rw [if_neg hj] at hp
        rcases ih _ hp with h | ⟨h1, h2, h3⟩
        · exact Or.inl h
        · exact Or.inr ⟨h1, List.mem_cons_of_mem _ h2, h3⟩

theorem processSims_kept_of_not_mem (i : ℕ) (js : List ℕ) (st : DedupState)
    (x : ℕ) (hx : x ∉ js) :
    x ∈ (processSims i js st).kept ↔ x ∈ st.kept := by
  induction js generalizing st with
  | nil => simp [processSims]
  | cons j js ih =>
      have hxj : x ≠ j := fun h => hx (h ▸ List.mem_cons_self _ _)
      have hxs : x ∉ js := fun h => hx (List.mem_cons_of_mem _ h)
      rw [processSims]
      split
      · rw [ih _ hxs]
        simp [Finset.mem_erase, hxj]
      · exact ih _ hxs

theorem processSims_not_kept_of_mem (i : ℕ) (js : List ℕ) (st : DedupState)
    (x : ℕ) (hx : x ∈ js) :
    x ∉ (processSims i js st).kept := by
  induction js generalizing st with
  | nil => cases hx
  | cons j js ih =>
      rw [processSims]
      rcases List.mem_cons.mp hx with rfl | hx'
      · split
        · intro hmem
          have := processSims_kept_subset i js _ hmem
          simp at this
        · intro hmem
          exact ‹x ∉ st.kept› (processSims_kept_subset i js st hmem)
      · split
        · exact ih _ hx'
        · exact ih _ hx'

theorem processSims_mem_dupOf_of_mem (i : ℕ) (js : List ℕ) (st : DedupState)
    (x : ℕ) (hx : x ∈ js) (hk : x ∈ st.kept) :
    (x, i) ∈ (processSims i js st).dupOf := by
  induction js generalizing st with
  | nil => cases hx
  | cons j js ih =>
      rw [processSims]
      rcases List.mem_cons.mp hx with rfl | hx'
      · rw [if_pos hk]
        obtain ⟨t, ht⟩ := processSims_dupOf_extend i js
          ⟨st.kept.erase x, st.dupOf ++ [(x, i)]⟩
        rw [ht]
        simp
      · by_cases hj : j ∈ st.kept
        · rw [if_pos hj]
          by_cases hxj : x = j
          · subst hxj
            obtain ⟨t, ht⟩ := processSims_dupOf_extend i js
              ⟨st.kept.erase x, st.dupOf ++ [(x, i)]⟩
            rw [ht]
            simp
          · exact ih _ hx' (Finset.mem_erase.mpr ⟨hxj, hk⟩)
        · rw [if_neg hj]
          exact ih _ hx' hk

/-! ### The running invariant of the greedy pass -/

theorem inv_init (n : ℕ) : Inv n ⟨Finset.range n, []⟩ := by
  refine ⟨fun j => ?_, by simp [keysOf], by simp [keysOf], by simp, by simp⟩
  simp [keysOf]

theorem processSims_inv (n i : ℕ) (js : List ℕ) (st : DedupState)
    (hinv : Inv n st) (hi : i ∈ st.kept) (hji : ∀ j ∈ js, j ≠ i) :
    Inv n (processSims i js st) ∧ i ∈ (processSims i js st).kept := by
  induction js generalizing st with
  | nil => exact ⟨by simpa [processSims] using hinv, by simpa [processSims] using hi⟩
  | cons j js ih =>
      rw [processSims]
      by_cases hj : j ∈ st.kept
      · rw [if_pos hj]
        obtain ⟨hpart, hdisj, hnod, hpair, hval⟩ := hinv
        have hjne : j ≠ i := hji j (List.mem_cons_self _ _)
        have hjkeys : j ∉ keysOf st := fun h => hdisj j h hj
        have hikeys : i ∉ keysOf st := fun h => hdisj i h hi
        have hjn : j ∈ Finset.range n := (hpart j).mp (Or.inl hj)
        have hin : i ∈ Finset.range n := (hpart i).mp (Or.inl hi)
        refine ih ⟨st.kept.erase j, st.dupOf ++ [(j, i)]⟩
          ⟨?_, ?_, ?_, ?_, ?_⟩ (Finset.mem_erase.mpr ⟨hjne.symm, hi⟩)
          (fun x hx => hji x (List.mem_cons_of_mem _ hx))
        · intro x
          by_cases hxj : x = j
          · subst hxj
            simp [keysOf, hjn]
          · have hx := hpart x
            simp only [keysOf, List.map_append, List.map_cons, List.map_nil,
              List.mem_append, List.mem_singleton, Finset.mem_erase] at hx ⊢
            rw [← hx]
            simp [hxj]
        · intro x hx
          simp only [keysOf, List.map_append, List.map_cons, List.map_nil,
            List.mem_append, List.mem_singleton] at hx
          rcases hx with hx | hx
          · intro hmem
            exact hdisj x hx (Finset.mem_of_mem_erase hmem)
          · subst hx
            simp
        · simp only [keysOf, List.map_append, List.map_cons, List.map_nil]
          rw [List.nodup_append]
          refine ⟨hnod, List.nodup_singleton _, ?_⟩
          intro a ha hb
          rcases List.mem_singleton.mp hb with rfl
          exact hjkeys ha
        · rw [List.pairwise_append]
          refine ⟨hpair, List.pairwise_singleton _ _, ?_⟩
          intro a ha b hb
          rcases List.mem_singleton.mp hb with rfl
          show i ≠ a.1
          intro hcontra
          exact hikeys (by rw [hcontra]; exact List.mem_map_of_mem Prod.fst ha)
        · intro p hp
          rcases List.mem_append.mp hp with hp | hp
          · exact hval p hp
          · rcases List.mem_singleton.mp hp with rfl
            exact ⟨Finset.mem_range.mp hin, hjne.symm⟩
      · rw [if_neg hj]
        exact ih st hinv hi (fun x hx => hji x (List.mem_cons_of_mem _ hx))

/-! ### Facts about the outer pass -/

theorem dedupLoop_kept_subset (l : List (List (ℕ × ℚ))) (c : ℕ)
    (st : DedupState) : (dedupLoop c l st).kept ⊆ st.kept := by
  induction l generalizing c st with
  | nil => simp [dedupLoop]
  | cons items rest ih =>
      rw [dedupLoop]
      split
      · exact (ih _ _).trans (processSims_kept_subset _ _ _)
      · exact ih _ _

theorem dedupLoop_dupOf_extend (l : List (List (ℕ × ℚ))) (c : ℕ)
    (st : DedupState) : ∃ t, (dedupLoop c l st).dupOf = st.dupOf ++ t := by
  induction l generalizing c st with
  | nil => exact ⟨[], by simp [dedupLoop]⟩
  | cons items rest ih =>
      rw [dedupLoop]
      split
      · obtain ⟨t₁, ht₁⟩ := processSims_dupOf_extend c (nbrsOf c items) st
        obtain ⟨t₂, ht₂⟩ := ih (c + 1) (processSims c (nbrsOf c items) st)
        exact ⟨t₁ ++ t₂, by rw [ht₂, ht₁, List.append_assoc]⟩
      · exact ih _ _

theorem dedupLoop_inv (n : ℕ) (l : List (List (ℕ × ℚ))) (c : ℕ)
    (st : DedupState) (hinv : Inv n st) : Inv n (dedupLoop c l st) := by
  induction l generalizing c st with
  | nil => simpa [dedupLoop] using hinv
  | cons items rest ih =>
      rw [dedupLoop]
      split
      · refine ih _ _ (processSims_inv n c (nbrsOf c items) st hinv ‹_› ?_).1
        intro j hj
        exact (mem_nbrsOf.mp hj).2
      · exact ih _ _ hinv

theorem dedupLoop_kept_of_untouched (l : List (List (ℕ × ℚ))) (c : ℕ)
    (st : DedupState) (x : ℕ)
    (h : ∀ k items, l[k]? = some items → (c + k) ∈ st.kept →
      x ∉ nbrsOf (c + k) items) :
    x ∈ (dedupLoop c l st).kept ↔ x ∈ st.kept := by
  induction l generalizing c st with
  | nil => simp [dedupLoop]
  | cons items rest ih =>
      rw [dedupLoop]
      split
      · have hc : c ∈ st.kept := ‹_›
        have hx0 : x ∉ nbrsOf c items := by
          have := h 0 items (by simp)
          simpa using this hc
        rw [ih (c + 1) _ ?_]
        · exact processSims_kept_of_not_mem c (nbrsOf c items) st x hx0
        · intro k items' hk hmem
          have harith : c + 1 + k = c + (k + 1) := by omega
          have := h (k + 1) items' (by simpa using hk)
          rw [harith]
          exact this (by
            rw [← harith]
            exact processSims_kept_subset _ _ _ hmem)
      · rw [ih (c + 1) st ?_]
        intro k items' hk hmem
        have harith : c + 1 + k = c + (k + 1) := by omega
        have := h (k + 1) items' (by simpa using hk)
        rw [harith]
        exact this (by rw [← harith]; exact hmem)

theorem dedupLoop_mem_dupOf (l : List (List (ℕ × ℚ))) (c : ℕ)
    (st : DedupState) (p : ℕ × ℕ) (hp : p ∈ (dedupLoop c l st).dupOf) :
    p ∈ st.dupOf ∨ ∃ k items, l[k]? = some items ∧ p.2 = c + k ∧
      p.1 ∈ nbrsOf p.2 items := by
  induction l generalizing c st with
  | nil => exact Or.inl (by simpa [dedupLoop] using hp)
  | cons items rest ih =>
      rw [dedupLoop] at hp
      by_cases hc : c ∈ st.kept
      · rw [if_pos hc] at hp
        rcases ih _ _ hp with h | ⟨k, items', hk, h2, h3⟩
        · rcases processSims_mem_dupOf _ _ _ _ h with h' | ⟨h1, h2, _⟩
          · exact Or.inl h'
          · refine Or.inr ⟨0, items, by simp, by simpa using h1, ?_⟩
            rw [h1]
            simpa using h2
        · refine Or.inr ⟨k + 1, items', by simpa using hk, by omega, h3⟩
      · rw [if_neg hc] at hp
        rcases ih _ _ hp with h | ⟨k, items', hk, h2, h3⟩
        · exact Or.inl h
        · exact Or.inr ⟨k + 1, items', by simpa using hk, by omega, h3⟩

theorem dedupLoop_append (l₁ l₂ : List (List (ℕ × ℚ))) (c : ℕ)
    (st : DedupState) :
    dedupLoop c (l₁ ++ l₂) st = dedupLoop (c + l₁.length) l₂ (dedupLoop c l₁ st) := by
  induction l₁ generalizing c st with
  | nil => simp [dedupLoop]
  | cons items rest ih =>
      rw [List.cons_append, dedupLoop]
      conv_rhs => rw [dedupLoop]
      split
      · rw [ih]
        congr 1
        simp only [List.length_cons]
        omega
      · rw [ih]
        congr 1
        simp only [List.length_cons]
        omega

/-! ### Symmetric neighbor relations and representative validity -/

theorem symSeg_shift {c : ℕ} {items : List (ℕ × ℚ)}
    {rest : List (List (ℕ × ℚ))} (h : SymSeg c (items :: rest)) :
    SymSeg (c + 1) rest := by
  intro k₁ k₂ it₁ it₂ h₁ h₂ hmem
  have e₁ : c + 1 + k₁ = c + (k₁ + 1) := by omega
  have e₂ : c + 1 + k₂ = c + (k₂ + 1) := by omega
  rw [e₁, e₂]
  refine h (k₁ + 1) (k₂ + 1) it₁ it₂ (by simpa using h₁) (by simpa using h₂) ?_
  rw [← e₁, ← e₂]
  exact hmem

theorem dedupLoop_values_kept (l : List (List (ℕ × ℚ))) (c : ℕ)
    (st : DedupState) (hsym : SymSeg c l) (hv : ValuesKept st)
    (hnf : NoFuture c l st) : ValuesKept (dedupLoop c l st) := by
  induction l generalizing c st with
  | nil => simpa [dedupLoop] using hv
  | cons items rest ih =>
      rw [dedupLoop]
      split
      · have hc : c ∈ st.kept := ‹_›
        set st' := processSims c (nbrsOf c items) st with hst'
        have hself : c ∉ nbrsOf c items := self_not_mem_nbrsOf c items
        have hckept : c ∈ st'.kept :=
          (processSims_kept_of_not_mem c (nbrsOf c items) st c hself).mpr hc
        refine ih (c + 1) st' (symSeg_shift hsym) ?_ ?_
        · -- values still kept after the step at position c
          intro p hp
          rcases processSims_mem_dupOf _ _ _ _ hp with hold | ⟨h1, _, _⟩
          · have hpk : p.2 ∈ st.kept := hv p hold
            have hpn : p.2 ∉ nbrsOf c items := by
              have := hnf p hold 0 items (by simp)
              simpa using this hc
            exact (processSims_kept_of_not_mem _ _ _ _ hpn).mpr hpk
          · rw [h1]
            exact hckept
        · -- no future source still lists any recorded value
          intro p hp k items' hk hkept hmem
          have harith : c + 1 + k = c + (k + 1) := by omega
          rcases processSims_mem_dupOf _ _ _ _ hp with hold | ⟨h1, _, _⟩
          · have hin : c + (k + 1) ∈ st.kept := by
              rw [← harith]
              exact processSims_kept_subset _ _ _ hkept
            have := hnf p hold (k + 1) items' (by simpa using hk) hin
            rw [harith] at hmem
            exact this hmem
          · -- the new value is c itself; symmetry sends the offender back to c
            rw [h1] at hmem
            have hcmem : c + 0 ∈ nbrsOf (c + (k + 1)) items' := by
              rw [Nat.add_zero, ← harith]
              exact hmem
            have hback : c + (k + 1) ∈ nbrsOf (c + 0) items :=
              hsym 0 (k + 1) items items' (by simp) (by simpa using hk) hcmem
            rw [Nat.add_zero] at hback
            have : c + (k + 1) ∉ st'.kept :=
              processSims_not_kept_of_mem c (nbrsOf c items) st _ hback
            rw [← harith] at this
            exact this hkept
      · refine ih (c + 1) st (symSeg_shift hsym) hv ?_
        intro p hp k items' hk hkept
        have harith : c + 1 + k = c + (k + 1) := by omega
        rw [harith] at hkept ⊢
        exact hnf p hp (k + 1) items' (by simpa using hk) hkept

/-! ### Small bridging lemmas -/

theorem getD_of_getElem? {α : Type _} {l : List α} {k : ℕ} {it : α} (d : α)
    (h : l[k]? = some it) : l.getD k d = it := by
  simp [List.getD, h]

theorem lookup_cons_eval {a : ℕ × ℕ} {t : List (ℕ × ℕ)} {x : ℕ} :
    (a :: t).lookup x = if x = a.1 then some a.2 else t.lookup x := by
  cases a with
  | mk a1 a2 =>
      simp only [List.lookup]
      split <;> simp_all

theorem lookup_eq_some_of_mem_of_nodup {l : List (ℕ × ℕ)} {x v : ℕ}
    (hmem : (x, v) ∈ l) (hnod : (l.map Prod.fst).Nodup) :
    l.lookup x = some v := by
  induction l with
  | nil => cases hmem
  | cons a t ih =>
      simp only [List.map_cons, List.nodup_cons] at hnod
      rw [lookup_cons_eval]
      rcases List.mem_cons.mp hmem with h | h
      · rw [← h]
        simp
      · have hxa : x ≠ a.1 := by
          intro hx
          exact hnod.1 (hx ▸ List.mem_map_of_mem Prod.fst h)
        rw [if_neg hxa]
        exact ih h hnod.2

theorem lookup_append_of_some {l t : List (ℕ × ℕ)} {x v : ℕ}
    (h : l.lookup x = some v) : (l ++ t).lookup x = some v := by
  induction l with
  | nil => simp [List.lookup] at h
  | cons a l ih =>
      rw [lookup_cons_eval] at h
      rw [List.cons_append, lookup_cons_eval]
      split at h
      · rw [if_pos ‹_›]
        exact h
      · rw [if_neg ‹_›]
        exact ih h

/-! ### The invariant holds for the resolver result -/

theorem dedupResolve_fst (results : List (List (ℕ × ℚ))) :
    (dedupResolve results).1 =
      (dedupLoop 0 results ⟨Finset.range results.length, []⟩).kept := rfl

theorem dedupResolve_snd (results : List (List (ℕ × ℚ))) :
    (dedupResolve results).2 =
      (dedupLoop 0 results ⟨Finset.range results.length, []⟩).dupOf := rfl

theorem dedupResolve_inv (results : List (List (ℕ × ℚ))) :
    Inv results.length (dedupLoop 0 results ⟨Finset.range results.length, []⟩) :=
  dedupLoop_inv _ _ _ _ (inv_init _)

/-! ### Claim theorems -/

/-- C3: for the same-dataset resolver on any input with document count `n`
(all candidate indices in range), the returned kept set and the key set of
the returned duplicate mapping are disjoint and their union is
`{0, ..., n-1}`. -/
theorem dedup_partition (results : List (List (ℕ × ℚ))) (_hr : InRange results) :
    Disjoint (dedupResolve results).1
      ((dedupResolve results).2.map Prod.fst).toFinset ∧
    (dedupResolve results).1 ∪ ((dedupResolve results).2.map Prod.fst).toFinset =
      Finset.range results.length := by
  obtain ⟨hpart, hdisj, -, -, -⟩ := dedupResolve_inv results
  rw [dedupResolve_fst, dedupResolve_snd]
  constructor
  · rw [Finset.disjoint_left]
    intro a ha hb
    exact hdisj a (by simpa [keysOf] using hb) ha
  · ext j
    simp only [Finset.mem_union, List.mem_toFinset]
    exact hpart j

/-- Witness for C3 at a concrete input. -/
theorem dedup_partition_witness :
    InRange [[(1, (1 : ℚ))], []] ∧
    (Disjoint (dedupResolve [[(1, (1 : ℚ))], []]).1
        ((dedupResolve [[(1, (1 : ℚ))], []]).2.map Prod.fst).toFinset ∧
      (dedupResolve [[(1, (1 : ℚ))], []]).1 ∪
          ((dedupResolve [[(1, (1 : ℚ))], []]).2.map Prod.fst).toFinset =
        Finset.range 2) :=
  ⟨by decide, dedup_partition [[(1, 1)], []] (by decide)⟩

/-- C5: whenever an entry `duplicate_of[j] = i` is written during the pass
(so the final mapping splits as `l₁ ++ (j, i) :: l₂`, the mapping being
append-only), the source `i` belonged to the canonical set at that moment:
by the partition invariant that set is exactly `range n` minus the keys
written so far, i.e. the keys of `l₁`. -/
theorem dedup_value_canonical_at_write (results : List (List (ℕ × ℚ)))
    (l₁ l₂ : List (ℕ × ℕ)) (j i : ℕ)
    (h : (dedupResolve results).2 = l₁ ++ (j, i) :: l₂) :
    i ∈ Finset.range results.length ∧ i ∉ l₁.map Prod.fst := by
  obtain ⟨-, -, -, hpair, hval⟩ := dedupResolve_inv results
  rw [dedupResolve_snd] at h
  constructor
  · have hmem : (j, i) ∈
        (dedupLoop 0 results ⟨Finset.range results.length, []⟩).dupOf := by
      rw [h]
      simp
    exact Finset.mem_range.mpr (hval _ hmem).1
  · rw [h, List.pairwise_append] at hpair
    intro hmem
    obtain ⟨a, ha, ha1⟩ := List.mem_map.mp hmem
    exact hpair.2.2 a ha (j, i) (List.mem_cons_self _ _) ha1.symm

/-- Witness for C5 at a concrete input. -/
theorem dedup_value_canonical_at_write_witness :
    (dedupResolve [[(1, (1 : ℚ))], []]).2 = [] ++ (1, 0) :: [] ∧
    (0 ∈ Finset.range ([[(1, (1 : ℚ))], []] : List (List (ℕ × ℚ))).length ∧
      0 ∉ ([] : List (ℕ × ℕ)).map Prod.fst) :=
  ⟨by decide, dedup_value_canonical_at_write [[(1, 1)], []] [] [] 1 0 (by decide)⟩

/-- C8: the duplicate mapping never contains an entry whose key equals its
value (a document's own index is dropped from its neighbor list before any
removal decision). -/
theorem dedup_no_self_mapping (results : List (List (ℕ × ℚ))) (j i : ℕ)
    (h : (j, i) ∈ (dedupResolve results).2) : j ≠ i := by
  obtain ⟨-, -, -, -, hval⟩ := dedupResolve_inv results
  rw [dedupResolve_snd] at h
  exact fun hji => (hval _ h).2 hji.symm

/-- Witness for C8 at a concrete input. -/
theorem dedup_no_self_mapping_witness :
    (1, 0) ∈ (dedupResolve [[(1, (1 : ℚ))], []]).2 ∧ (1 : ℕ) ≠ 0 :=
  ⟨by decide, dedup_no_self_mapping [[(1, 1)], []] 1 0 (by decide)⟩

/-- C9: from any state, the rest of the pass only shrinks the canonical set
(an index once removed is never re-added), only appends to the duplicate
mapping, and never changes the value an already-mapped key looks up to
(first-writer-wins).  Every intermediate state of `dedupResolve`'s pass is
of the form `dedupLoop c l st`, so this covers the whole pass. -/
theorem dedup_monotone_first_writer (c : ℕ) (l : List (List (ℕ × ℚ)))
    (st : DedupState) :
    (dedupLoop c l st).kept ⊆ st.kept ∧
    (∃ t, (dedupLoop c l st).dupOf = st.dupOf ++ t) ∧
    ∀ j v, st.dupOf.lookup j = some v →
      (dedupLoop c l st).dupOf.lookup j = some v := by
  refine ⟨dedupLoop_kept_subset l c st, dedupLoop_dupOf_extend l c st, ?_⟩
  intro j v hj
  obtain ⟨t, ht⟩ := dedupLoop_dupOf_extend l c st
  rw [ht]
  exact lookup_append_of_some hj

/-- Witness for C9 at a concrete input. -/
theorem dedup_monotone_first_writer_witness :
    ([(3, 0)] : List (ℕ × ℕ)).lookup 3 = some 0 ∧
    (dedupLoop 0 [[(1, (1 : ℚ))]] ⟨{0, 1}, [(3, 0)]⟩).dupOf.lookup 3 = some 0 :=
  ⟨by decide,
    (dedup_monotone_first_writer 0 [[(1, 1)]] ⟨{0, 1}, [(3, 0)]⟩).2.2 3 0
      (by decide)⟩

/-- C1 counterexample: on a non-symmetric family of neighbor lists
(document 0 lists 2, document 1 lists 0, document 2 lists nobody), the
returned mapping sends 2 to 0 although 0 is itself removed later, so the
value of a mapping entry need not be in the returned kept set. -/
theorem dedup_representative_validity_cex :
    (2, 0) ∈ (dedupResolve [[(2, (1 : ℚ))], [(0, 1)], []]).2 ∧
    0 ∉ (dedupResolve [[(2, (1 : ℚ))], [(0, 1)], []]).1 := by
  decide

/-- C1 (amended): when the delivered neighbor relation is symmetric and
complete, every value of the returned duplicate mapping is a member of the
returned kept set. -/
theorem dedup_representative_validity_sym (results : List (List (ℕ × ℚ)))
    (hsym : SymRel results) (j i : ℕ)
    (h : (j, i) ∈ (dedupResolve results).2) :
    i ∈ (dedupResolve results).1 := by
  rw [dedupResolve_snd] at h
  rw [dedupResolve_fst]
  have hvk : ValuesKept
      (dedupLoop 0 results ⟨Finset.range results.length, []⟩) := by
    refine dedupLoop_values_kept results 0 _ ?_ ?_ ?_
    · intro k₁ k₂ it₁ it₂ h₁ h₂ hmem
      have hl₁ : k₁ < results.length := by
        rcases List.getElem?_eq_some.mp h₁ with ⟨hl, -⟩
        exact hl
      have hl₂ : k₂ < results.length := by
        rcases List.getElem?_eq_some.mp h₂ with ⟨hl, -⟩
        exact hl
      have g₁ : results.getD k₁ [] = it₁ := getD_of_getElem? [] h₁
      have g₂ : results.getD k₂ [] = it₂ := getD_of_getElem? [] h₂
      simp only [Nat.zero_add] at hmem ⊢
      rw [← g₁]
      exact hsym k₁ hl₁ k₂ hl₂ (by rw [g₂]; exact hmem)
    · intro p hp
      cases hp
    · intro p hp
      cases hp
  exact hvk _ h

/-- Witness for the amended C1 at a concrete symmetric input. -/
theorem dedup_representative_validity_sym_witness :
    SymRel [[(1, (1 : ℚ))], [(0, 1)]] ∧
    (1, 0) ∈ (dedupResolve [[(1, (1 : ℚ))], [(0, 1)]]).2 ∧
    0 ∈ (dedupResolve [[(1, (1 : ℚ))], [(0, 1)]]).1 :=
  ⟨by decide, by decide,
    dedup_representative_validity_sym [[(1, 1)], [(0, 1)]] (by decide) 1 0
      (by decide)⟩

/-- C7 counterexample: an out-of-range candidate index (5, with a single
document) makes neither resolver fail: the same-dataset resolver completes
normally ignoring it, and the cross-dataset resolver completes normally and
even stores it. -/
theorem resolver_invalid_index_cex :
    dedupResolve [[(5, (1 : ℚ))]] = ({0}, []) ∧
    deduplicate_across_datasets 1 [[(5, (1 : ℚ))]] = ([0], [(0, 5)]) := by
  constructor
  · decide
  · decide

/-- C7 (amended, same-dataset part): the resolver performs no index
validation and never fails; an out-of-range candidate index simply causes
no removal and no mapping, since every mapping key and value and every
kept index lies in `[0, n)`. -/
theorem dedup_indices_in_range (results : List (List (ℕ × ℚ))) (j i : ℕ) :
    ((j, i) ∈ (dedupResolve results).2 →
      j < results.length ∧ i < results.length) ∧
    (dedupResolve results).1 ⊆ Finset.range results.length := by
  obtain ⟨hpart, -, -, -, hval⟩ := dedupResolve_inv results
  constructor
  · intro h
    rw [dedupResolve_snd] at h
    refine ⟨?_, (hval _ h).1⟩
    have hkey : j ∈ keysOf
        (dedupLoop 0 results ⟨Finset.range results.length, []⟩) :=
      List.mem_map_of_mem Prod.fst h
    have := (hpart j).mp (Or.inr hkey)
    simpa using this
  · rw [dedupResolve_fst]
    intro x hx
    exact (hpart x).mp (Or.inl hx)

/-- Witness for the amended C7 at a concrete input. -/
theorem dedup_indices_in_range_witness :
    (1, 0) ∈ (dedupResolve [[(1, (1 : ℚ))], []]).2 ∧ (1 < 2 ∧ 0 < 2) :=
  ⟨by decide, (dedup_indices_in_range [[(1, 1)], []] 1 0).1 (by decide)⟩

/-- C4: lowest index wins.  If the neighbor relation is symmetric and
complete, `{2, 5, 7}` are pairwise in each other's delivered neighbor lists,
and no other document's neighbor list connects to any of them, then the
resolver keeps `2` and maps both `5` and `7` to `2`. -/
theorem dedup_lowest_index_wins (results : List (List (ℕ × ℚ)))
    (_hsym : SymRel results) (hn : 7 < results.length)
    (h25 : 5 ∈ nbrsOf 2 (results.getD 2 []))
    (h27 : 7 ∈ nbrsOf 2 (results.getD 2 []))
    (_h52 : 2 ∈ nbrsOf 5 (results.getD 5 []))
    (_h57 : 7 ∈ nbrsOf 5 (results.getD 5 []))
    (_h72 : 2 ∈ nbrsOf 7 (results.getD 7 []))
    (_h75 : 5 ∈ nbrsOf 7 (results.getD 7 []))
    (hothers : ∀ q, q < results.length → (q ≠ 2 ∧ q ≠ 5 ∧ q ≠ 7) →
      2 ∉ nbrsOf q (results.getD q []) ∧ 5 ∉ nbrsOf q (results.getD q []) ∧
        7 ∉ nbrsOf q (results.getD q [])) :
    2 ∈ (dedupResolve results).1 ∧ 5 ∉ (dedupResolve results).1 ∧
    7 ∉ (dedupResolve results).1 ∧
    (dedupResolve results).2.lookup 5 = some 2 ∧
    (dedupResolve results).2.lookup 7 = some 2 := by
  have h2lt : 2 < results.length := by omega
  -- positions 0 and 1 touch none of 2, 5, 7
  have hkeep : ∀ x : ℕ, x = 2 ∨ x = 5 ∨ x = 7 → x < results.length →
      x ∈ (dedupLoop 0 (results.take 2)
        ⟨Finset.range results.length, []⟩).kept := by
    intro x hx hxlen
    refine (dedupLoop_kept_of_untouched _ 0 _ x ?_).mpr
      (Finset.mem_range.mpr hxlen)
    intro k items hk _
    rw [List.getElem?_take] at hk
    by_cases hk2 : k < 2
    · rw [if_pos hk2] at hk
      have hklen : k < results.length := by
        rcases List.getElem?_eq_some.mp hk with ⟨hl, -⟩
        exact hl
      have hgd : results.getD k [] = items := getD_of_getElem? [] hk
      have hoth := hothers k hklen ⟨by omega, by omega, by omega⟩
      simp only [Nat.zero_add]
      rw [← hgd]
      rcases hx with rfl | rfl | rfl
      · exact hoth.1
      · exact hoth.2.1
      · exact hoth.2.2
    · rw [if_neg hk2] at hk
      cases hk
  have h2k := hkeep 2 (Or.inl rfl) h2lt
  have h5k := hkeep 5 (Or.inr (Or.inl rfl)) (by omega)
  have h7k := hkeep 7 (Or.inr (Or.inr rfl)) hn
  -- the step at position 2 removes 5 and 7 and records them, and keeps 2
  have h5r := processSims_mem_dupOf_of_mem 2 (nbrsOf 2 (results.getD 2 []))
    (dedupLoop 0 (results.take 2) ⟨Finset.range results.length, []⟩) 5 h25 h5k
  have h7r := processSims_mem_dupOf_of_mem 2 (nbrsOf 2 (results.getD 2 []))
    (dedupLoop 0 (results.take 2) ⟨Finset.range results.length, []⟩) 7 h27 h7k
  have h5nk := processSims_not_kept_of_mem 2 (nbrsOf 2 (results.getD 2 []))
    (dedupLoop 0 (results.take 2) ⟨Finset.range results.length, []⟩) 5 h25
  have h7nk := processSims_not_kept_of_mem 2 (nbrsOf 2 (results.getD 2 []))
    (dedupLoop 0 (results.take 2) ⟨Finset.range results.length, []⟩) 7 h27
  have h2k3 : 2 ∈ (processSims 2 (nbrsOf 2 (results.getD 2 []))
      (dedupLoop 0 (results.take 2)
        ⟨Finset.range results.length, []⟩)).kept :=
    (processSims_kept_of_not_mem 2 _ _ 2 (self_not_mem_nbrsOf 2 _)).mpr h2k
  -- the whole pass factors through the step at position 2
  have hchain : dedupLoop 0 results ⟨Finset.range results.length, []⟩ =
      dedupLoop 3 (results.drop 3)
        (processSims 2 (nbrsOf 2 (results.getD 2 []))
          (dedupLoop 0 (results.take 2)
            ⟨Finset.range results.length, []⟩)) := by
    have hsplit : dedupLoop 0 results ⟨Finset.range results.length, []⟩ =
        dedupLoop 0 (results.take 2 ++ results.drop 2)
          ⟨Finset.range results.length, []⟩ := by
      rw [List.take_append_drop]
    rw [hsplit, dedupLoop_append]
    have hlt : (results.take 2).length = 2 := by
      rw [List.length_take]
      omega
    rw [hlt]
    have hdrop : results.drop 2 = results.getD 2 [] :: results.drop 3 := by
      rw [List.drop_eq_getElem_cons h2lt]
      congr 1
      exact (getD_of_getElem? [] (List.getElem?_eq_getElem h2lt)).symm
    rw [hdrop]
    simp only [Nat.zero_add]
    rw [dedupLoop, if_pos h2k]
  -- nothing after position 2 can remove 2
  have h2fin : 2 ∈ (dedupLoop 3 (results.drop 3)
      (processSims 2 (nbrsOf 2 (results.getD 2 []))
        (dedupLoop 0 (results.take 2)
          ⟨Finset.range results.length, []⟩))).kept := by
    refine (dedupLoop_kept_of_untouched _ 3 _ 2 ?_).mpr h2k3
    intro k items hk hkept
    rw [List.getElem?_drop] at hk
    have hklen : 3 + k < results.length := by
      rcases List.getElem?_eq_some.mp hk with ⟨hl, -⟩
      exact hl
    have hgd : results.getD (3 + k) [] = items := getD_of_getElem? [] hk
    by_cases hq5 : 3 + k = 5
    · rw [hq5] at hkept
      exact absurd hkept h5nk
    · by_cases hq7 : 3 + k = 7
      · rw [hq7] at hkept
        exact absurd hkept h7nk
      · have hoth := hothers (3 + k) hklen ⟨by omega, hq5, hq7⟩
        rw [← hgd]
        exact hoth.1
  have hinv := dedupResolve_inv results
  rw [hchain] at hinv
  have hnod := hinv.2.2.1
  have hmem5 : (5, 2) ∈ (dedupLoop 3 (results.drop 3)
      (processSims 2 (nbrsOf 2 (results.getD 2 []))
        (dedupLoop 0 (results.take 2)
          ⟨Finset.range results.length, []⟩))).dupOf := by
    obtain ⟨t, ht⟩ := dedupLoop_dupOf_extend (results.drop 3) 3 _
    rw [ht]
    exact List.mem_append_left _ h5r
  have hmem7 : (7, 2) ∈ (dedupLoop 3 (results.drop 3)
      (processSims 2 (nbrsOf 2 (results.getD 2 []))
        (dedupLoop 0 (results.take 2)
          ⟨Finset.range results.length, []⟩))).dupOf := by
    obtain ⟨t, ht⟩ := dedupLoop_dupOf_extend (results.drop 3) 3 _
    rw [ht]
    exact List.mem_append_left _ h7r
  refine ⟨?_, ?_, ?_, ?_, ?_⟩
  · rw [dedupResolve_fst, hchain]
    exact h2fin
  · rw [dedupResolve_fst, hchain]
    exact fun hm => h5nk (dedupLoop_kept_subset _ _ _ hm)
  · rw [dedupResolve_fst, hchain]
    exact fun hm => h7nk (dedupLoop_kept_subset _ _ _ hm)
  · rw [dedupResolve_snd, hchain]
    exact lookup_eq_some_of_mem_of_nodup hmem5 hnod
  · rw [dedupResolve_snd, hchain]
    exact lookup_eq_some_of_mem_of_nodup hmem7 hnod

/-- Witness for C4 at a concrete input (8 documents, cluster `{2,5,7}`). -/
theorem dedup_lowest_index_wins_witness :
    SymRel [[], [], [(5, (1 : ℚ)), (7, 1)], [], [], [(2, 1), (7, 1)], [],
      [(2, 1), (5, 1)]] ∧
    (2 ∈ (dedupResolve [[], [], [(5, (1 : ℚ)), (7, 1)], [], [],
        [(2, 1), (7, 1)], [], [(2, 1), (5, 1)]]).1 ∧
      5 ∉ (dedupResolve [[], [], [(5, (1 : ℚ)), (7, 1)], [], [],
        [(2, 1), (7, 1)], [], [(2, 1), (5, 1)]]).1 ∧
      7 ∉ (dedupResolve [[], [], [(5, (1 : ℚ)), (7, 1)], [], [],
        [(2, 1), (7, 1)], [], [(2, 1), (5, 1)]]).1 ∧
      (dedupResolve [[], [], [(5, (1 : ℚ)), (7, 1)], [], [],
        [(2, 1), (7, 1)], [], [(2, 1), (5, 1)]]).2.lookup 5 = some 2 ∧
      (dedupResolve [[], [], [(5, (1 : ℚ)), (7, 1)], [], [],
        [(2, 1), (7, 1)], [], [(2, 1), (5, 1)]]).2.lookup 7 = some 2) :=
  ⟨by decide,
    dedup_lowest_index_wins
      [[], [], [(5, 1), (7, 1)], [], [], [(2, 1), (7, 1)], [],
        [(2, 1), (5, 1)]]
      (by decide) (by decide) (by decide) (by decide) (by decide) (by decide)
      (by decide) (by decide) (by decide)⟩

/-- C2: in the full same-dataset pipeline, an index `j` is removed and
mapped to source `i` only if `score(i, j)` is at or above the threshold
(inclusive comparison, enforced by the upstream thresholded neighbor
search), and never for a self-pair.  With the partition property (C3),
"mapped" coincides with "removed from the kept set", so a below-threshold
pair causes no removal and no mapping. -/
theorem dedup_threshold_inclusive (sim : ℕ → ℕ → ℚ) (threshold : ℚ)
    (n j i : ℕ) (h : (j, i) ∈ (deduplicate sim threshold n).2) :
    threshold ≤ sim i j ∧ j ≠ i := by
  have h' : (j, i) ∈ (dedupLoop 0 (nearest_neighbor_threshold sim threshold n)
      ⟨Finset.range (nearest_neighbor_threshold sim threshold n).length,
        []⟩).dupOf := h
  rcases dedupLoop_mem_dupOf _ _ _ _ h' with hnil | ⟨k, items, hk, h2, h3⟩
  · cases hnil
  · have hkn : k < n := by
      have hlt := (List.getElem?_eq_some.mp hk).1
      simpa [nearest_neighbor_threshold] using hlt
    rw [nearest_neighbor_threshold, List.getElem?_map,
      List.getElem?_range hkn] at hk
    simp only [Option.map_some'] at hk
    have hik : i = k := by simpa using h2
    subst hik
    rw [← Option.some_inj.mp hk] at h3
    have hj := mem_nbrsOf.mp h3
    have h3' : j ∈ (List.range n).filter (fun x => threshold ≤ sim i x) := by
      have hmap := hj.1
      simp only [List.map_map] at hmap
      simpa using hmap
    constructor
    · have := (List.mem_filter.mp h3').2
      simpa using this
    · exact hj.2

/-- Witness for C2 at a concrete input (everything similar at exactly the
threshold, exercising the inclusive comparison). -/
theorem dedup_threshold_inclusive_witness :
    (1, 0) ∈ (deduplicate (fun _ _ => (1 : ℚ)) 1 2).2 ∧
    ((1 : ℚ) ≤ 1 ∧ (1 : ℕ) ≠ 0) :=
  ⟨by decide, dedup_threshold_inclusive (fun _ _ => 1) 1 2 1 0 (by decide)⟩

/-! ### The cross-dataset pass -/

theorem find?_eq_head?_filtered {α : Type _} (p : α → Bool) (l : List α) :
    l.find? p = (l.filter p).head? := by
  induction l with
  | nil => rfl
  | cons a l ih =>
      by_cases h : p a = true
      · rw [List.find?_cons_of_pos _ h, List.filter_cons_of_pos h]
        rfl
      · rw [List.find?_cons_of_neg _ (by simpa using h),
          List.filter_cons_of_neg (by simpa using h)]
        exact ih

theorem crossLoop_mem_fst (t : ℚ) (l : List (List (ℕ × ℚ))) (c : ℕ)
    (acc : List ℕ × List (ℕ × ℕ)) (x : ℕ) :
    x ∈ (crossLoop t c l acc).1 ↔
      x ∈ acc.1 ∨ ∃ k items, l[k]? = some items ∧ x = c + k ∧
        ∃ p ∈ items, t ≤ p.2 := by
  induction l generalizing c acc with
  | nil => simp [crossLoop]
  | cons items rest ih =>
      cases hfl : (items.filter (fun item => t ≤ item.2)).map Prod.fst with
      | nil =>
          have hstep : crossLoop t c (items :: rest) acc =
              crossLoop t (c + 1) rest acc := by
            rw [crossLoop, hfl]
          have hno : ∀ p ∈ items, ¬ t ≤ p.2 := by
            intro p hp
            have hfe : items.filter (fun item => t ≤ item.2) = [] :=
              List.map_eq_nil_iff.mp hfl
            have := List.filter_eq_nil_iff.mp hfe p hp
            simpa using this
          rw [hstep, ih]
          constructor
          · rintro (h | ⟨k, its, hk, hx, hp⟩)
            · exact Or.inl h
            · exact Or.inr ⟨k + 1, its, by simpa using hk, by omega, hp⟩
          · rintro (h | ⟨k, its, hk, hx, hp⟩)
            · exact Or.inl h
            · cases k with
              | zero =>
                  obtain ⟨p, hpmem, hpt⟩ := hp
                  have : items = its := by simpa using hk
                  subst this
                  exact absurd hpt (hno p hpmem)
              | succ k =>
                  exact Or.inr ⟨k, its, by simpa using hk, by omega, hp⟩
      | cons j js =>
          have hstep : crossLoop t c (items :: rest) acc =
              crossLoop t (c + 1) rest (acc.1 ++ [c], acc.2 ++ [(c, j)]) := by
            rw [crossLoop, hfl]
          have hex : ∃ p ∈ items, t ≤ p.2 := by
            have hne : items.filter (fun item => t ≤ item.2) ≠ [] := by
              intro h0
              rw [h0] at hfl
              cases hfl
            obtain ⟨p, hp⟩ := List.exists_mem_of_ne_nil _ hne
            have := List.mem_filter.mp hp
            exact ⟨p, this.1, by simpa using this.2⟩
          rw [hstep, ih]
          simp only [List.mem_append, List.mem_singleton]
          constructor
          · rintro ((h | rfl) | ⟨k, its, hk, hx, hp⟩)
            · exact Or.inl h
            · exact Or.inr ⟨0, items, by simp, by omega, hex⟩
            · exact Or.inr ⟨k + 1, its, by simpa using hk, by omega, hp⟩
          · rintro (h | ⟨k, its, hk, hx, hp⟩)
            · exact Or.inl (Or.inl h)
            · cases k with
              | zero => exact Or.inl (Or.inr (by omega))
              | succ k =>
                  exact Or.inr ⟨k, its, by simpa using hk, by omega, hp⟩

theorem crossLoop_mem_snd (t : ℚ) (l : List (List (ℕ × ℚ))) (c : ℕ)
    (acc : List ℕ × List (ℕ × ℕ)) (x jj : ℕ) :
    (x, jj) ∈ (crossLoop t c l acc).2 ↔
      (x, jj) ∈ acc.2 ∨ ∃ k items, l[k]? = some items ∧ x = c + k ∧
        ∃ s, items.find? (fun p => t ≤ p.2) = some (jj, s) := by
  induction l generalizing c acc with
  | nil => simp [crossLoop]
  | cons items rest ih =>
      cases hfl : (items.filter (fun item => t ≤ item.2)).map Prod.fst with
      | nil =>
          have hstep : crossLoop t c (items :: rest) acc =
              crossLoop t (c + 1) rest acc := by
            rw [crossLoop, hfl]
          have hfe : items.filter (fun item => t ≤ item.2) = [] :=
            List.map_eq_nil_iff.mp hfl
          have hfind : items.find? (fun p => t ≤ p.2) = none := by
            rw [find?_eq_head?_filtered, hfe]
            rfl
          rw [hstep, ih]
          constructor
          · rintro (h | ⟨k, its, hk, hx, hp⟩)
            · exact Or.inl h
            · exact Or.inr ⟨k + 1, its, by simpa using hk, by omega, hp⟩
          · rintro (h | ⟨k, its, hk, hx, s, hs⟩)
            · exact Or.inl h
            · cases k with
              | zero =>
                  have : items = its := by simpa using hk
                  subst this
                  rw [hfind] at hs
                  cases hs
              | succ k =>
                  exact Or.inr ⟨k, its, by simpa using hk, by omega, s, hs⟩
      | cons j js =>
          have hstep : crossLoop t c (items :: rest) acc =
              crossLoop t (c + 1) rest (acc.1 ++ [c], acc.2 ++ [(c, j)]) := by
            rw [crossLoop, hfl]
          obtain ⟨⟨q1, q2⟩, qs, hq⟩ : ∃ q qs,
              items.filter (fun item => t ≤ item.2) = q :: qs := by
            cases hflt : items.filter (fun item => t ≤ item.2) with
            | nil =>
                rw [hflt] at hfl
                cases hfl
            | cons q qs => exact ⟨q, qs, rfl⟩
          have hqj : q1 = j := by
            rw [hq] at hfl
            have hh := congrArg List.head? hfl
            simpa using hh
          rcases hqj with rfl
          have hfind : items.find? (fun p => t ≤ p.2) = some (q1, q2) := by
            rw [find?_eq_head?_filtered, hq]
            rfl
          rw [hstep, ih]
          simp only [List.mem_append, List.mem_singleton, Prod.mk.injEq]
          constructor
          · rintro ((h | ⟨rfl, rfl⟩) | ⟨k, its, hk, hx, hp⟩)
            · exact Or.inl h
            · exact Or.inr ⟨0, items, by simp, by omega, q2, hfind⟩
            · exact Or.inr ⟨k + 1, its, by simpa using hk, by omega, hp⟩
          · rintro (h | ⟨k, its, hk, hx, s, hs⟩)
            · exact Or.inl (Or.inl h)
            · cases k with
              | zero =>
                  have : items = its := by simpa using hk
                  subst this
                  rw [hfind] at hs
                  injection hs with hpair
                  injection hpair with hj1 hj2
                  exact Or.inl (Or.inr ⟨by omega, hj1.symm⟩)
              | succ k =>
                  exact Or.inr ⟨k, its, by simpa using hk, by omega, s, hs⟩

/-- C6: in the cross-dataset resolver, a query index `i` is appended to
the overlapping list iff at least one candidate in its delivered list has
score at or above the threshold (inclusive comparison), and `i` is mapped
exactly to the first candidate, in delivered order (`List.find?`, no
re-sorting), whose score is at or above the threshold. -/
theorem cross_overlap_iff (threshold : ℚ) (results : List (List (ℕ × ℚ)))
    (i : ℕ) (items : List (ℕ × ℚ)) (h : results[i]? = some items) :
    (i ∈ (deduplicate_across_datasets threshold results).1 ↔
      ∃ p ∈ items, threshold ≤ p.2) ∧
    ∀ j, ((i, j) ∈ (deduplicate_across_datasets threshold results).2 ↔
      ∃ s, items.find? (fun p => threshold ≤ p.2) = some (j, s)) := by
  constructor
  · rw [deduplicate_across_datasets, crossLoop_mem_fst]
    simp only [List.not_mem_nil, false_or]
    constructor
    · rintro ⟨k, its, hk, hik, hp⟩
      have hki : k = i := by omega
      subst hki
      rw [h] at hk
      cases hk
      exact hp
    · intro hp
      exact ⟨i, items, h, by omega, hp⟩
  · intro j
    rw [deduplicate_across_datasets, crossLoop_mem_snd]
    simp only [List.not_mem_nil, false_or]
    constructor
    · rintro ⟨k, its, hk, hik, s, hs⟩
      have hki : k = i := by omega
      subst hki
      rw [h] at hk
      cases hk
      exact ⟨s, hs⟩
    · rintro ⟨s, hs⟩
      exact ⟨i, items, h, by omega, s, hs⟩

/-- Witness for C6 at a concrete input whose single candidate scores
exactly the threshold (exercising the inclusive boundary). -/
theorem cross_overlap_iff_witness :
    ([[(3, (1 : ℚ))]] : List (List (ℕ × ℚ)))[0]? = some [(3, 1)] ∧
    ((0 ∈ (deduplicate_across_datasets 1 [[(3, (1 : ℚ))]]).1 ↔
        ∃ p ∈ [((3 : ℕ), (1 : ℚ))], (1 : ℚ) ≤ p.2) ∧
      ∀ j, ((0, j) ∈ (deduplicate_across_datasets 1 [[(3, (1 : ℚ))]]).2 ↔
        ∃ s, [((3 : ℕ), (1 : ℚ))].find? (fun p => (1 : ℚ) ≤ p.2) =
          some (j, s))) :=
  ⟨rfl, cross_overlap_iff 1 [[(3, 1)]] 0 [(3, 1)] rfl⟩

/-- C10: the cross-dataset resolver applies no self-pair exclusion: with
the same collection as reference and query and the query's own entry in
its candidate list at score equal to the threshold, query 0 is marked
overlapping with itself (`reference_of[0] = 0`); the same-dataset resolver
on the same delivered list instead drops the self-pair and records
nothing. -/
theorem cross_no_self_exclusion :
    deduplicate_across_datasets 1 [[(0, (1 : ℚ))]] = ([0], [(0, 0)]) ∧
    dedupResolve [[(0, (1 : ℚ))]] = ({0}, []) := by
  constructor
  · decide
  · decide

end SemanticDedup
